import Mathlib

/-!
Verification of the token/cell doubly-linked list repository.

The list algorithm is identical in `src/qcell.rs`, `src/tcell.rs` and
`src/ghost_cell.rs`: a node holds a payload, a strong (`Arc`) forward
pointer and a weak backward pointer, and all link mutation goes through a
single token.  We embed it shallowly: the heap of cells is a partial map
from node identities (`Nat`, standing for the `Arc` allocation) to node
records; a strong pointer (`NodePtr`) and a weak pointer (`WeakNodePtr`)
are both node identities, and upgrading a weak pointer succeeds exactly
when the target is still present in the heap.  Writing through the token
(`rw` / `borrow_mut`) is an update of the heap at a live identity; the
token itself carries no data relevant to the link structure, so it is not
represented.  The brand-checking behaviour of the cell primitives
(`qcell` / `ghost_cell` crates) is modelled separately below.
-/

namespace DList

/-- `Node<T>` from qcell.rs lines 8-12 (same shape in tcell.rs and
ghost_cell.rs): a payload, an optional strong forward pointer and an
optional weak backward pointer.  Pointers are node identities. -/
structure Node (T : Type) where
  data : T
  next : Option Nat
  prev : Option Nat
  deriving Repr, DecidableEq

/-- The heap of list cells: a partial map from node identity to node. -/
def Heap (T : Type) : Type := Nat → Option (Node T)

/-- `Weak::upgrade`: succeeds (returning the strong pointer to the same
cell) exactly when the target cell is still allocated. -/
def upgrade {T : Type} (h : Heap T) (p : Nat) : Option Nat :=
  if (h p).isSome then some p else none

/-- Overwrite the cell at identity `i` (used where the source writes a
whole node, e.g. allocation). -/
def Heap.write {T : Type} (h : Heap T) (i : Nat) (n : Node T) : Heap T :=
  fun j => if j = i then some n else h j

/-- Mutate the cell at identity `i` through the token (`rw` /
`borrow_mut` followed by a field assignment).  In the source the target
is always a live `Arc`, so the dead case cannot arise there. -/
def Heap.modify {T : Type} (h : Heap T) (i : Nat) (f : Node T → Node T) : Heap T :=
  fun j => if j = i then (h j).map f else h j

/-- `Node::remove` (qcell.rs lines 29-40, identical in tcell.rs 24-35 and
ghost_cell.rs 43-55):
take `prev` and upgrade it, take `next`; if a successor exists point its
`prev` at the old predecessor (as a weak pointer); if a predecessor
exists point its `next` at the old successor. -/
def remove {T : Type} (h : Heap T) (node : Nat) : Heap T :=
  match h node with
  | none => h
  | some n =>
    let old_prev : Option Nat := n.prev.bind (fun p => upgrade h p)
    let old_next : Option Nat := n.next
    let h1 := Heap.write h node { n with prev := none, next := none }
    let h2 := match old_next with
      | none => h1
      | some onx => Heap.modify h1 onx (fun m => { m with prev := old_prev })
    match old_prev with
    | none => h2
    | some op => Heap.modify h2 op (fun m => { m with next := old_next })

/-- The body of `Node::insert_next` after the initial `remove` (qcell.rs
lines 46-55): take `node1.next` as `node1_old_next`; if it exists point
its `prev` at `node2`; set `node2.prev := node1`, `node2.next :=
node1_old_next`; finally set `node1.next := node2`. -/
def insert_rest {T : Type} (h : Heap T) (node1 node2 : Nat) : Heap T :=
  match h node1 with
  | none => h
  | some n1 =>
    let node1_old_next : Option Nat := n1.next
    let h1 := Heap.write h node1 { n1 with next := none }
    let h2 := match node1_old_next with
      | none => h1
      | some onx => Heap.modify h1 onx (fun m => { m with prev := some node2 })
    let h3 := Heap.modify h2 node2
      (fun m => { m with prev := some node1, next := node1_old_next })
    Heap.modify h3 node1 (fun m => { m with next := some node2 })

/-- `Node::insert_next` (qcell.rs lines 43-56, identical in tcell.rs
38-55 and ghost_cell.rs 58-80): first `remove(node2)`, then splice
`node2` right after `node1`. -/
def insert_next {T : Type} (h : Heap T) (node1 node2 : Nat) : Heap T :=
  insert_rest (remove h node2) node1 node2

/-- Allocation state: the heap plus the next fresh identity (standing
for the address of the next `Arc::new`). -/
structure St (T : Type) where
  heap : Heap T
  fresh : Nat

/-- `Node::new` (qcell.rs lines 17-26): allocate a fresh detached cell
holding `value`. -/
def Node.new {T : Type} (s : St T) (value : T) : St T × Nat :=
  (⟨Heap.write s.heap s.fresh { data := value, next := none, prev := none },
    s.fresh + 1⟩, s.fresh)

/-- The loop of `Node::from_iter` (qcell.rs lines 65-70): repeatedly
allocate a node for the next element and `insert_next` it after the
current tail. -/
def from_iter_go {T : Type} (s : St T) (tail : Nat) : List T → St T
  | [] => s
  | e :: rest =>
    let p := Node.new s e
    let s2 : St T := { p.1 with heap := insert_next p.1.heap tail p.2 }
    from_iter_go s2 p.2 rest

/-- `Node::from_iter` (qcell.rs lines 58-72, identical in tcell.rs
57-71): `None` on empty input, otherwise allocate the head and append
the remaining elements left to right. -/
def from_iter {T : Type} (s : St T) : List T → St T × Option Nat
  | [] => (s, none)
  | e :: rest =>
    let p := Node.new s e
    (from_iter_go p.1 p.2 rest, some p.2)

/-- One pass of the cursor of `view_as_vec`'s while loop: follow `next`
for `fuel` steps (the Rust loop has no fuel; `fuel` bounds how far we
unroll it). -/
def cursor {T : Type} (h : Heap T) : Nat → Option Nat → Option Nat
  | 0, cur => cur
  | fuel + 1, cur =>
    match cur with
    | none => none
    | some i =>
      match h i with
      | none => none
      | some n => cursor h fuel n.next

/-- `Node::view_as_vec` (qcell.rs lines 74-82, identical in tcell.rs
73-84): walk the `next` chain from `head`, collecting the payloads.  The
Rust `while let` loop is unrolled at most `fuel` times. -/
def view_as_vec {T : Type} (h : Heap T) : Nat → Option Nat → List T
  | _, none => []
  | 0, some _ => []
  | fuel + 1, some i =>
    match h i with
    | none => []
    | some n => n.data :: view_as_vec h fuel n.next

/-- The steady-state list invariant of spec §3: whenever `A.next` is a
strong pointer to `B`, then `B` is live and upgrading `B.prev` yields
`A`. -/
def Inv {T : Type} (h : Heap T) : Prop :=
  ∀ A nA B, h A = some nA → nA.next = some B →
    ∃ nB, h B = some nB ∧ nB.prev.bind (fun p => upgrade h p) = some A

/-- The same invariant with the weak upgrade unfolded: `B.prev` stores
exactly `A` (and `A` is live, which holds anyway at an edge source). -/
def InvS {T : Type} (h : Heap T) : Prop :=
  ∀ A nA B, h A = some nA → nA.next = some B →
    ∃ nB, h B = some nB ∧ nB.prev = some A

/-- A mutating list call: the two operations of spec §4.3 that relink
existing cells. -/
inductive Op where
  | removeOp (node : Nat) : Op
  | insertOp (node1 node2 : Nat) : Op
  deriving Repr, DecidableEq

def applyOp {T : Type} (h : Heap T) : Op → Heap T
  | .removeOp n => remove h n
  | .insertOp a b => insert_next h a b

def applyOps {T : Type} (h : Heap T) : List Op → Heap T
  | [] => h
  | o :: rest => applyOps (applyOp h o) rest

/-- In the source every argument of `remove` / `insert_next` is a live
`Arc`; for `insert_next` the moved node (`node2`) is consumed by value,
which is what the liveness side condition records. -/
def opLive {T : Type} (h : Heap T) : Op → Prop
  | .removeOp _ => True
  | .insertOp _ b => (h b).isSome

/-- A node is detached when it is live with both links empty. -/
def isDetached {T : Type} (h : Heap T) (i : Nat) : Bool :=
  match h i with
  | none => false
  | some n => n.next.isNone && n.prev.isNone

/-- The error taxonomy of spec §7 (the repository relies on the `qcell`
crate to raise these as panics). -/
inductive CellError where
  | brandMismatch : CellError
  | duplicateOwner : CellError
  | aliasViolation : CellError
  deriving Repr, DecidableEq

/-- A brand-free heap of plain value cells, standing for the `TCell`s of
one brand (tcell.rs: within one `Brand` the token is the single
capability; cell identity is the `Arc` address). -/
structure CellHeap (T : Type) where
  cells : Nat → Option T

def readCell {T : Type} (s : CellHeap T) (i : Nat) : Option T :=
  s.cells i

def writeCell {T : Type} (s : CellHeap T) (i : Nat) (v : T) : CellHeap T :=
  ⟨fun j => if j = i then some v else s.cells j⟩

/-- Modelled from the spec: `TCellOwner::rw2` of the external `qcell`
crate (spec §4.1 `write2`), exercised by `two_simultaneous_borrows` /
`two_simultaneous_borrows_panic` in tcell.rs.  It must runtime-check
that the two handles are not the same underlying cell and fail with
`AliasViolation` if they are; otherwise it yields two independent
mutable views.  A completed pair of writes through those views is
modelled as the resulting heap. -/
def rw2 {T : Type} (s : CellHeap T) (a b : Nat) (va vb : T) :
    Except CellError (CellHeap T) :=
  if a = b then .error .aliasViolation
  else .ok (writeCell (writeCell s a va) b vb)

/-- Modelled from the spec: `TCellOwner::<Brand>::new` of the external
`qcell` crate (spec §4.1, Static variant), exercised by
`unique_owner_restriction` in tcell.rs: constructing a token fails with
`DuplicateOwner` when a token for the same brand is already live in the
process; the process state is the list of brands with a live owner. -/
def newOwner (live : List Nat) (brand : Nat) : Except CellError (List Nat) :=
  if brand ∈ live then .error .duplicateOwner else .ok (brand :: live)

/-- A dynamically branded cell: `QCell` records the runtime identity of
the `QCellOwner` that created it (qcell.rs: `QCell::new(owner, ...)`
inside `Node::new`). -/
structure QCell (T : Type) where
  owner : Nat
  value : T
  deriving Repr, DecidableEq

/-- Modelled from the spec: `QCell::ro` of the external `qcell` crate
(spec §4.1, Dynamic variant), exercised by `dynamic_owner_check` in
qcell.rs: a read succeeds only when the reading token's runtime identity
equals the identity stamped into the cell, and fails with
`BrandMismatch` otherwise. -/
def qread {T : Type} (tokenId : Nat) (c : QCell T) : Except CellError T :=
  if c.owner = tokenId then .ok c.value else .error .brandMismatch

/-- Building a list under one `QCellOwner` (qcell.rs `from_iter` with
`Node::new(value, owner)`) stamps every allocated cell with that owner's
identity. -/
def buildCells {T : Type} (tokenId : Nat) (l : List T) : List (QCell T) :=
  l.map (fun v => ⟨tokenId, v⟩)

/-- Whether a back pointer field is an owning (`Arc`/`Rc`) or non-owning
(`Weak`) handle. -/
inductive RefKind where
  | strong : RefKind
  | weak : RefKind
  deriving Repr, DecidableEq

/-- The four list variants of the repository. -/
inductive Variant where
  | qcellV : Variant
  | tcellV : Variant
  | ghostCellV : Variant
  | cellFamilyV : Variant
  deriving Repr, DecidableEq

/-- The declared type of each variant's backward link field, transcribed
from the four `Node` declarations:
qcell.rs line 11 `prev: Option<WeakNodePtr<T>>` (a `Weak`),
tcell.rs line 9 `prev: Option<WeakNodePtr<T, Brand>>` (a `Weak`),
ghost_cell.rs line 13 `prev: Option<WeakNodePtr<'id, T>>` (a `Weak`),
cell_family.rs line 10 `previous: Option<Rc<FooCell<Node<T>>>>` (an
owning `Rc`). -/
def prevRefKind : Variant → RefKind
  | .qcellV => .weak
  | .tcellV => .weak
  | .ghostCellV => .weak
  | .cellFamilyV => .strong

/-- A two-node list `[1, 2]` at identities `0 → 1`, used as a concrete
steady state. -/
def pairHeap : Heap Nat := fun j =>
  if j = 0 then some { data := 1, next := some 1, prev := none }
  else if j = 1 then some { data := 2, next := none, prev := some 0 }
  else none

/-- A three-node list `[10, 20, 30]` at identities `0 → 1 → 2` plus a
detached node `3`, the concrete stage for moving node `1` after node
`3`. -/
def moveHeap : Heap Nat := fun j =>
  if j = 0 then some { data := 10, next := some 1, prev := none }
  else if j = 1 then some { data := 20, next := some 2, prev := some 0 }
  else if j = 2 then some { data := 30, next := none, prev := some 1 }
  else if j = 3 then some { data := 40, next := none, prev := none }
  else none

/-- A single detached node `0`. -/
def oneDetached : Heap Nat := fun j =>
  if j = 0 then some { data := 7, next := none, prev := none }
  else none

/-- The heap produced by `insert_next(token, n, n)` on a detached `n`:
the one-node cycle. -/
def selfLoopHeap : Heap Nat := insert_next oneDetached 0 0

/-- The empty allocation state. -/
def emptySt (T : Type) : St T := ⟨fun _ => none, 0⟩

theorem upgrade_live {T : Type} {h : Heap T} {p : Nat} {n : Node T}
    (hp : h p = some n) : upgrade h p = some p := by
  unfold upgrade
  rw [hp]
  rfl

theorem upgrade_dead {T : Type} {h : Heap T} {p : Nat}
    (hp : h p = none) : upgrade h p = none := by
  unfold upgrade
  rw [hp]
  rfl

theorem upgrade_eq_some {T : Type} {h : Heap T} {p q : Nat}
    (hq : upgrade h p = some q) : p = q ∧ (h p).isSome := by
  unfold upgrade at hq
  by_cases hp : (h p).isSome
  · rw [if_pos hp] at hq
    exact ⟨Option.some.inj hq, hp⟩
  · rw [if_neg hp] at hq
    exact absurd hq (by simp)

theorem Inv_iff_InvS {T : Type} (h : Heap T) : Inv h ↔ InvS h := by
  constructor
  · intro hi A nA B hA hnext
    obtain ⟨nB, hB, hup⟩ := hi A nA B hA hnext
    refine ⟨nB, hB, ?_⟩
    match hpv : nB.prev with
    | none =>
      rw [hpv, Option.none_bind] at hup
      exact Option.noConfusion hup
    | some p =>
      rw [hpv, Option.some_bind] at hup
      obtain ⟨rfl, _⟩ := upgrade_eq_some hup
      rfl
  · intro hi A nA B hA hnext
    obtain ⟨nB, hB, hpv⟩ := hi A nA B hA hnext
    refine ⟨nB, hB, ?_⟩
    rw [hpv, Option.some_bind]
    exact upgrade_live hA

theorem write_apply {T : Type} (h : Heap T) (i : Nat) (n : Node T) (j : Nat) :
    Heap.write h i n j = if j = i then some n else h j := rfl

theorem modify_apply {T : Type} (h : Heap T) (i : Nat) (f : Node T → Node T) (j : Nat) :
    Heap.modify h i f j = if j = i then (h j).map f else h j := rfl

end DList
namespace DList

variable {T : Type}

theorem remove_of_dead {h : Heap T} {x : Nat} (hx : h x = none) : remove h x = h := by
  unfold remove
  rw [hx]

theorem remove_eq_nn {h : Heap T} {node : Nat} {n : Node T} (hn : h node = some n)
    (hnn : n.next = none) (hpn : n.prev.bind (fun p => upgrade h p) = none) :
    remove h node = Heap.write h node { n with prev := none, next := none } := by
  unfold remove
  rw [hn]
  dsimp only
  rw [hnn, hpn]

theorem remove_eq_sn {h : Heap T} {node N : Nat} {n : Node T} (hn : h node = some n)
    (hnn : n.next = some N) (hpn : n.prev.bind (fun p => upgrade h p) = none) :
    remove h node =
      Heap.modify (Heap.write h node { n with prev := none, next := none }) N
        (fun m => { m with prev := none }) := by
  unfold remove
  rw [hn]
  dsimp only
  rw [hnn, hpn]

theorem remove_eq_ns {h : Heap T} {node P : Nat} {n : Node T} (hn : h node = some n)
    (hnn : n.next = none) (hpn : n.prev.bind (fun p => upgrade h p) = some P) :
    remove h node =
      Heap.modify (Heap.write h node { n with prev := none, next := none }) P
        (fun m => { m with next := none }) := by
  unfold remove
  rw [hn]
  dsimp only
  rw [hnn, hpn]

theorem remove_eq_ss {h : Heap T} {node N P : Nat} {n : Node T} (hn : h node = some n)
    (hnn : n.next = some N) (hpn : n.prev.bind (fun p => upgrade h p) = some P) :
    remove h node =
      Heap.modify
        (Heap.modify (Heap.write h node { n with prev := none, next := none }) N
          (fun m => { m with prev := some P }))
        P (fun m => { m with next := some N }) := by
  unfold remove
  rw [hn]
  dsimp only
  rw [hnn, hpn]

end DList
namespace DList

variable {T : Type}

theorem insert_rest_of_dead {h : Heap T} {node1 node2 : Nat} (hx : h node1 = none) :
    insert_rest h node1 node2 = h := by
  unfold insert_rest
  rw [hx]

theorem insert_rest_eq_none {h : Heap T} {node1 node2 : Nat} {n1 : Node T}
    (hn1 : h node1 = some n1) (hold : n1.next = none) :
    insert_rest h node1 node2 =
      Heap.modify
        (Heap.modify (Heap.write h node1 { n1 with next := none }) node2
          (fun m => { m with prev := some node1, next := none }))
        node1 (fun m => { m with next := some node2 }) := by
  unfold insert_rest
  rw [hn1]
  dsimp only
  rw [hold]

theorem insert_rest_eq_some {h : Heap T} {node1 node2 onx : Nat} {n1 : Node T}
    (hn1 : h node1 = some n1) (hold : n1.next = some onx) :
    insert_rest h node1 node2 =
      Heap.modify
        (Heap.modify
          (Heap.modify (Heap.write h node1 { n1 with next := none }) onx
            (fun m => { m with prev := some node2 }))
          node2 (fun m => { m with prev := some node1, next := some onx }))
        node1 (fun m => { m with next := some node2 }) := by
  unfold insert_rest
  rw [hn1]
  dsimp only
  rw [hold]

theorem bind_upgrade_eq_some {h : Heap T} {pv : Option Nat} {P : Nat}
    (hpn : pv.bind (fun p => upgrade h p) = some P) :
    pv = some P ∧ ∃ nP, h P = some nP := by
  match pv with
  | none =>
    rw [Option.none_bind] at hpn
    exact Option.noConfusion hpn
  | some p =>
    rw [Option.some_bind] at hpn
    obtain ⟨hpP, hs⟩ := upgrade_eq_some hpn
    subst hpP
    exact ⟨rfl, Option.isSome_iff_exists.mp hs⟩

theorem bind_upgrade_of_live {h : Heap T} {P : Nat} {nP : Node T} (hP : h P = some nP) :
    (some P).bind (fun p => upgrade h p) = some P := by
  rw [Option.some_bind]
  exact upgrade_live hP

theorem isSome_modify (h : Heap T) (i : Nat) (f : Node T → Node T) (j : Nat) :
    ((Heap.modify h i f) j).isSome = (h j).isSome := by
  rw [modify_apply]
  split
  · next heq => rw [heq, Option.isSome_map']
  · rfl

theorem isSome_write_live {h : Heap T} {i : Nat} (n : Node T) (j : Nat)
    (hi : (h i).isSome) : ((Heap.write h i n) j).isSome = (h j).isSome := by
  rw [write_apply]
  split
  · next heq => rw [heq]; exact hi.symm
  · rfl

/-- `remove` neither allocates nor frees a cell. -/
theorem isSome_remove (h : Heap T) (x j : Nat) :
    ((remove h x) j).isSome = (h j).isSome := by
  match hx : h x with
  | none => rw [remove_of_dead hx]
  | some n =>
    have hl : (h x).isSome := by rw [hx]; rfl
    match hnn : n.next, hpn : n.prev.bind (fun p => upgrade h p) with
    | none, none =>
      rw [remove_eq_nn hx hnn hpn, isSome_write_live _ _ hl]
    | some N, none =>
      rw [remove_eq_sn hx hnn hpn, isSome_modify, isSome_write_live _ _ hl]
    | none, some P =>
      rw [remove_eq_ns hx hnn hpn, isSome_modify, isSome_write_live _ _ hl]
    | some N, some P =>
      rw [remove_eq_ss hx hnn hpn, isSome_modify, isSome_modify,
        isSome_write_live _ _ hl]

/-- `insert_next` neither allocates nor frees a cell. -/
theorem isSome_insert_next (h : Heap T) (a b j : Nat) :
    ((insert_next h a b) j).isSome = (h j).isSome := by
  unfold insert_next
  have h0 : ∀ i, ((remove h b) i).isSome = (h i).isSome := isSome_remove h b
  match ha : (remove h b) a with
  | none => rw [insert_rest_of_dead ha, h0]
  | some n1 =>
    have hl : ((remove h b) a).isSome = true := by rw [ha]; rfl
    match hold : n1.next with
    | none =>
      rw [insert_rest_eq_none ha hold, isSome_modify, isSome_modify,
        isSome_write_live _ _ hl, h0]
    | some onx =>
      rw [insert_rest_eq_some ha hold, isSome_modify, isSome_modify, isSome_modify,
        isSome_write_live _ _ hl, h0]

/-- `remove` never changes any payload. -/
theorem data_remove (h : Heap T) (x j : Nat) :
    ((remove h x) j).map Node.data = (h j).map Node.data := by
  match hx : h x with
  | none => rw [remove_of_dead hx]
  | some n =>
    have key : ∀ (h' : Heap T) (i : Nat) (f : Node T → Node T),
        (∀ m, (f m).data = m.data) →
        ∀ j, ((Heap.modify h' i f) j).map Node.data = (h' j).map Node.data := by
      intro h' i f hf j
      rw [modify_apply]
      split
      · rw [Option.map_map]
        cases h' j <;> simp [hf]
      · rfl
    have keyw : ∀ j, ((Heap.write h x { n with prev := none, next := none }) j).map Node.data
        = (h j).map Node.data := by
      intro j
      rw [write_apply]
      split
      · next heq => rw [heq, hx]; rfl
      · rfl
    match hnn : n.next, hpn : n.prev.bind (fun p => upgrade h p) with
    | none, none =>
      rw [remove_eq_nn hx hnn hpn]; exact keyw j
    | some N, none =>
      rw [remove_eq_sn hx hnn hpn]
      exact (key _ _ _ (by intro m; rfl) j).trans (keyw j)
    | none, some P =>
      rw [remove_eq_ns hx hnn hpn]
      exact (key _ _ _ (by intro m; rfl) j).trans (keyw j)
    | some N, some P =>
      rw [remove_eq_ss hx hnn hpn]
      exact (key _ _ _ (by intro m; rfl) j).trans
        ((key _ _ _ (by intro m; rfl) j).trans (keyw j))

end DList
namespace DList

variable {T : Type}

/-- `remove` preserves the steady-state invariant, for any argument and
any alias pattern. -/
theorem invS_remove {h : Heap T} (hi : InvS h) (x : Nat) : InvS (remove h x) := by
  match hx : h x with
  | none => rw [remove_of_dead hx]; exact hi
  | some n =>
    match hnn : n.next, hpn : n.prev.bind (fun p => upgrade h p) with
    | none, none =>
      rw [remove_eq_nn hx hnn hpn]
      intro A nA B hA hnext
      rw [write_apply] at hA
      by_cases hAx : A = x
      · rw [if_pos hAx] at hA
        cases Option.some.inj hA
        exact Option.noConfusion hnext
      · rw [if_neg hAx] at hA
        obtain ⟨nB, hB, hBp⟩ := hi A nA B hA hnext
        by_cases hBx : B = x
        · rw [hBx, hx] at hB
          cases Option.some.inj hB
          rw [hBp, Option.some_bind, upgrade_live hA] at hpn
          exact Option.noConfusion hpn
        · refine ⟨nB, ?_, hBp⟩
          rw [write_apply, if_neg hBx]
          exact hB
    | some N, none =>
      obtain ⟨nN, hN, hNp⟩ := hi x n N hx hnn
      have hNx : N ≠ x := by
        intro hNe
        rw [hNe, hx] at hN
        cases Option.some.inj hN
        rw [hNp, Option.some_bind, upgrade_live hx] at hpn
        exact Option.noConfusion hpn
      rw [remove_eq_sn hx hnn hpn]
      have lookup : ∀ j, (Heap.modify
          (Heap.write h x { n with prev := none, next := none }) N
          (fun m => { m with prev := none })) j
          = if j = N then
              (if j = x then some { n with prev := none, next := none } else h j).map
                (fun m => { m with prev := none })
            else if j = x then some { n with prev := none, next := none } else h j := by
        intro j
        simp only [modify_apply, write_apply]
      intro A nA B hA hnext
      rw [lookup] at hA
      by_cases hAN : A = N
      · rw [if_pos hAN, if_neg (hAN ▸ hNx), hAN, hN, Option.map_some'] at hA
        cases Option.some.inj hA
        have hnext' : nN.next = some B := hnext
        obtain ⟨nB, hB, hBp⟩ := hi N nN B hN hnext'
        have hBx : B ≠ x := by
          intro hBe
          rw [hBe, hx] at hB
          cases Option.some.inj hB
          rw [hBp, Option.some_bind, upgrade_live hN] at hpn
          exact Option.noConfusion hpn
        have hBN : B ≠ N := by
          intro hBe
          rw [hBe, hN] at hB
          cases Option.some.inj hB
          rw [hNp] at hBp
          exact hNx (Option.some.inj hBp).symm
        refine ⟨nB, ?_, by rw [hBp, hAN]⟩
        rw [lookup, if_neg hBN, if_neg hBx]
        exact hB
      · by_cases hAx : A = x
        · rw [if_neg hAN, if_pos hAx] at hA
          cases Option.some.inj hA
          exact Option.noConfusion hnext
        · rw [if_neg hAN, if_neg hAx] at hA
          obtain ⟨nB, hB, hBp⟩ := hi A nA B hA hnext
          have hBx : B ≠ x := by
            intro hBe
            rw [hBe, hx] at hB
            cases Option.some.inj hB
            rw [hBp, Option.some_bind, upgrade_live hA] at hpn
            exact Option.noConfusion hpn
          have hBN : B ≠ N := by
            intro hBe
            rw [hBe, hN] at hB
            cases Option.some.inj hB
            rw [hNp] at hBp
            exact hAx (Option.some.inj hBp).symm
          refine ⟨nB, ?_, hBp⟩
          rw [lookup, if_neg hBN, if_neg hBx]
          exact hB
    | none, some P =>
      obtain ⟨hprev, nP, hP⟩ := bind_upgrade_eq_some hpn
      rw [remove_eq_ns hx hnn hpn]
      have lookup : ∀ j, (Heap.modify
          (Heap.write h x { n with prev := none, next := none }) P
          (fun m => { m with next := none })) j
          = if j = P then
              (if j = x then some { n with prev := none, next := none } else h j).map
                (fun m => { m with next := none })
            else if j = x then some { n with prev := none, next := none } else h j := by
        intro j
        simp only [modify_apply, write_apply]
      intro A nA B hA hnext
      rw [lookup] at hA
      by_cases hAP : A = P
      · rw [if_pos hAP] at hA
        by_cases hAx : A = x
        · rw [if_pos hAx, Option.map_some'] at hA
          cases Option.some.inj hA
          exact Option.noConfusion hnext
        · rw [if_neg hAx, hAP, hP, Option.map_some'] at hA
          cases Option.some.inj hA
          exact Option.noConfusion hnext
      · by_cases hAx : A = x
        · rw [if_neg hAP, if_pos hAx] at hA
          cases Option.some.inj hA
          exact Option.noConfusion hnext
        · rw [if_neg hAP, if_neg hAx] at hA
          obtain ⟨nB, hB, hBp⟩ := hi A nA B hA hnext
          have hBx : B ≠ x := by
            intro hBe
            rw [hBe, hx] at hB
            cases Option.some.inj hB
            rw [hprev] at hBp
            exact hAP (Option.some.inj hBp).symm
          by_cases hBP : B = P
          · rw [hBP, hP] at hB
            cases Option.some.inj hB
            refine ⟨{ nP with next := none }, ?_, hBp⟩
            rw [lookup, if_pos hBP, if_neg hBx, hBP, hP, Option.map_some']
          · refine ⟨nB, ?_, hBp⟩
            rw [lookup, if_neg hBP, if_neg hBx]
            exact hB
    | some N, some P =>
      obtain ⟨hprev, nP, hP⟩ := bind_upgrade_eq_some hpn
      obtain ⟨nN, hN, hNp⟩ := hi x n N hx hnn
      have hNxPx : N = x → P = x := by
        intro hNe
        rw [hNe, hx] at hN
        cases Option.some.inj hN
        rw [hprev] at hNp
        exact (Option.some.inj hNp)
      rw [remove_eq_ss hx hnn hpn]
      have lookup : ∀ j, (Heap.modify (Heap.modify
          (Heap.write h x { n with prev := none, next := none }) N
          (fun m => { m with prev := some P })) P
          (fun m => { m with next := some N })) j
          = if j = P then
              (if j = N then
                (if j = x then some { n with prev := none, next := none } else h j).map
                  (fun m => { m with prev := some P })
              else if j = x then some { n with prev := none, next := none } else h j).map
                (fun m => { m with next := some N })
            else if j = N then
              (if j = x then some { n with prev := none, next := none } else h j).map
                (fun m => { m with prev := some P })
            else if j = x then some { n with prev := none, next := none } else h j := by
        intro j
        simp only [modify_apply, write_apply]
      intro A nA B hA hnext
      rw [lookup] at hA
      by_cases hAx : A = x
      · by_cases hNx : N = x
        · have hPx : P = x := hNxPx hNx
          rw [if_pos (hAx.trans hPx.symm), if_pos (hAx.trans hNx.symm), if_pos hAx,
            Option.map_some', Option.map_some'] at hA
          cases Option.some.inj hA
          have hBN : N = B := Option.some.inj hnext
          refine ⟨{ data := n.data, next := some N, prev := some P }, ?_, ?_⟩
          · rw [lookup, if_pos ((hBN.symm.trans hNx).trans hPx.symm),
              if_pos (hBN.symm), if_pos (hBN.symm.trans hNx), Option.map_some',
              Option.map_some']
          · exact congrArg some (hPx.trans hAx.symm)
        · by_cases hPx : P = x
          · rw [if_pos (hAx.trans hPx.symm),
              if_neg (fun hh => hNx (hh.symm.trans hAx)), if_pos hAx,
              Option.map_some'] at hA
            cases Option.some.inj hA
            have hBN : N = B := Option.some.inj hnext
            have hBx2 : ¬ B = x := fun hh => hNx (hBN.trans hh)
            have hBP2 : ¬ B = P := fun hh => hNx (hBN.trans (hh.trans hPx))
            have hB2 : h B = some nN := by rw [hBN] at hN; exact hN
            refine ⟨{ nN with prev := some P }, ?_, ?_⟩
            · rw [lookup, if_neg hBP2, if_pos hBN.symm, if_neg hBx2, hB2,
                Option.map_some']
            · exact congrArg some (hPx.trans hAx.symm)
          · rw [if_neg (fun hh => hPx (hAx.symm.trans hh).symm),
              if_neg (fun hh => hNx (hh.symm.trans hAx)), if_pos hAx] at hA
            cases Option.some.inj hA
            exact Option.noConfusion hnext
      · by_cases hAN : A = N
        · have hNx : N ≠ x := fun hh => hAx (hAN.trans hh)
          by_cases hNP : N = P
          · rw [if_pos (hAN.trans hNP), if_pos hAN, if_neg hAx, hAN, hN,
              Option.map_some', Option.map_some'] at hA
            cases Option.some.inj hA
            have hBN : N = B := Option.some.inj hnext
            have hBx2 : ¬ B = x := fun hh => hNx (hBN.trans hh)
            have hB2 : h B = some nN := by rw [hBN] at hN; exact hN
            refine ⟨{ nN with prev := some P, next := some N }, ?_, ?_⟩
            · rw [lookup, if_pos (hBN.symm.trans hNP), if_pos hBN.symm,
                if_neg hBx2, hB2, Option.map_some', Option.map_some']
            · exact congrArg some (hNP.symm.trans hAN.symm)
          · rw [if_neg (fun hh => hNP (hAN.symm.trans hh)), if_pos hAN, if_neg hAx,
              hAN, hN, Option.map_some'] at hA
            cases Option.some.inj hA
            have hnext' : nN.next = some B := hnext
            obtain ⟨nB, hB, hBp⟩ := hi N nN B hN hnext'
            have hBx : B ≠ x := by
              intro hBe
              rw [hBe, hx] at hB
              cases Option.some.inj hB
              rw [hprev] at hBp
              exact hNP (Option.some.inj hBp).symm
            have hBN : B ≠ N := by
              intro hBe
              rw [hBe, hN] at hB
              cases Option.some.inj hB
              rw [hNp] at hBp
              exact hNx (Option.some.inj hBp).symm
            by_cases hBP : B = P
            · rw [hBP, hP] at hB
              cases Option.some.inj hB
              have hPN2 : ¬ B = N := hBN
              refine ⟨{ nP with next := some N }, ?_, by rw [hBp, hAN]⟩
              rw [lookup, if_pos hBP, if_neg hPN2, if_neg hBx, hBP, hP,
                Option.map_some']
            · refine ⟨nB, ?_, by rw [hBp, hAN]⟩
              rw [lookup, if_neg hBP, if_neg hBN, if_neg hBx]
              exact hB
        · by_cases hAP : A = P
          · have hPx : P ≠ x := fun hh => hAx (hAP.trans hh)
            have hPN : P ≠ N := fun hh => hAN (hAP.trans hh)
            rw [if_pos hAP, if_neg hAN, if_neg hAx] at hA
            match hhA : h A with
            | none => rw [hhA, Option.map_none'] at hA; exact Option.noConfusion hA
            | some na0 =>
              rw [hhA, Option.map_some'] at hA
              cases Option.some.inj hA
              have hBN : N = B := Option.some.inj hnext
              have hNx : N ≠ x := fun hh => hPx (hNxPx hh)
              have hBx2 : ¬ B = x := fun hh => hNx (hBN.trans hh)
              have hBP2 : ¬ B = P := fun hh => hPN ((hBN.trans hh).symm)
              have hB2 : h B = some nN := by rw [hBN] at hN; exact hN
              refine ⟨{ nN with prev := some P }, ?_, ?_⟩
              · rw [lookup, if_neg hBP2, if_pos hBN.symm, if_neg hBx2, hB2,
                  Option.map_some']
              · exact congrArg some hAP.symm
          · rw [if_neg hAP, if_neg hAN, if_neg hAx] at hA
            obtain ⟨nB, hB, hBp⟩ := hi A nA B hA hnext
            have hBx : B ≠ x := by
              intro hBe
              rw [hBe, hx] at hB
              cases Option.some.inj hB
              rw [hprev] at hBp
              exact hAP (Option.some.inj hBp).symm
            have hBN : B ≠ N := by
              intro hBe
              rw [hBe, hN] at hB
              cases Option.some.inj hB
              rw [hNp] at hBp
              exact hAx (Option.some.inj hBp).symm
            by_cases hBP : B = P
            · have hPN : ¬ P = N := fun hh => hBN (hBP.trans hh)
              rw [hBP, hP] at hB
              cases Option.some.inj hB
              refine ⟨{ nP with next := some N }, ?_, hBp⟩
              rw [lookup, if_pos hBP, if_neg hBN, if_neg hBx, hBP, hP,
                Option.map_some']
            · refine ⟨nB, ?_, hBp⟩
              rw [lookup, if_neg hBP, if_neg hBN, if_neg hBx]
              exact hB

end DList
namespace DList

variable {T : Type}

/-- After `remove h x`, the only cell whose `next` can point at `x` is
`x` itself. -/
theorem remove_no_incoming {h : Heap T} (hi : InvS h) (x : Nat) :
    ∀ i m, (remove h x) i = some m → m.next = some x → i = x := by
  match hx : h x with
  | none =>
    rw [remove_of_dead hx]
    intro i m hm hnext
    obtain ⟨nB, hB, _⟩ := hi i m x hm hnext
    rw [hx] at hB
    exact Option.noConfusion hB
  | some n =>
    match hnn : n.next, hpn : n.prev.bind (fun p => upgrade h p) with
    | none, none =>
      rw [remove_eq_nn hx hnn hpn]
      intro i m hm hnext
      by_cases hix : i = x
      · exact hix
      · rw [write_apply, if_neg hix] at hm
        obtain ⟨nB, hB, hBp⟩ := hi i m x hm hnext
        rw [hx] at hB
        cases Option.some.inj hB
        rw [hBp, Option.some_bind, upgrade_live hm] at hpn
        exact Option.noConfusion hpn
    | some N, none =>
      rw [remove_eq_sn hx hnn hpn]
      intro i m hm hnext
      by_cases hix : i = x
      · exact hix
      · simp only [modify_apply, write_apply] at hm
        by_cases hiN : i = N
        · rw [if_pos hiN, if_neg hix] at hm
          match hm0 : h i with
          | none => rw [hm0, Option.map_none'] at hm; exact Option.noConfusion hm
          | some m0 =>
            rw [hm0, Option.map_some'] at hm
            cases Option.some.inj hm
            obtain ⟨nB, hB, hBp⟩ := hi i m0 x hm0 hnext
            rw [hx] at hB
            cases Option.some.inj hB
            rw [hBp, Option.some_bind, upgrade_live hm0] at hpn
            exact Option.noConfusion hpn
        · rw [if_neg hiN, if_neg hix] at hm
          obtain ⟨nB, hB, hBp⟩ := hi i m x hm hnext
          rw [hx] at hB
          cases Option.some.inj hB
          rw [hBp, Option.some_bind, upgrade_live hm] at hpn
          exact Option.noConfusion hpn
    | none, some P =>
      obtain ⟨hprev, nP, hP⟩ := bind_upgrade_eq_some hpn
      rw [remove_eq_ns hx hnn hpn]
      intro i m hm hnext
      by_cases hix : i = x
      · exact hix
      · simp only [modify_apply, write_apply] at hm
        by_cases hiP : i = P
        · rw [if_pos hiP, if_neg hix] at hm
          match hm0 : h i with
          | none => rw [hm0, Option.map_none'] at hm; exact Option.noConfusion hm
          | some m0 =>
            rw [hm0, Option.map_some'] at hm
            cases Option.some.inj hm
            exact Option.noConfusion hnext
        · rw [if_neg hiP, if_neg hix] at hm
          obtain ⟨nB, hB, hBp⟩ := hi i m x hm hnext
          rw [hx] at hB
          cases Option.some.inj hB
          rw [hprev] at hBp
          exact absurd (Option.some.inj hBp).symm hiP
    | some N, some P =>
      obtain ⟨hprev, nP, hP⟩ := bind_upgrade_eq_some hpn
      obtain ⟨nN, hN, hNp⟩ := hi x n N hx hnn
      have hNxPx : N = x → P = x := by
        intro hNe
        rw [hNe, hx] at hN
        cases Option.some.inj hN
        rw [hprev] at hNp
        exact (Option.some.inj hNp)
      rw [remove_eq_ss hx hnn hpn]
      intro i m hm hnext
      by_cases hix : i = x
      · exact hix
      · simp only [modify_apply, write_apply] at hm
        by_cases hiP : i = P
        · rw [if_pos hiP] at hm
          match hv : (if i = N then
              (if i = x then some { n with prev := none, next := none } else h i).map
                (fun m => { m with prev := some P })
            else if i = x then some { n with prev := none, next := none } else h i) with
          | none => rw [hv, Option.map_none'] at hm; exact Option.noConfusion hm
          | some w =>
            rw [hv, Option.map_some'] at hm
            cases Option.some.inj hm
            exact hiP.trans (hNxPx (Option.some.inj hnext))
        · rw [if_neg hiP] at hm
          by_cases hiN : i = N
          · rw [if_pos hiN, if_neg hix] at hm
            match hm0 : h i with
            | none => rw [hm0, Option.map_none'] at hm; exact Option.noConfusion hm
            | some m0 =>
              rw [hm0, Option.map_some'] at hm
              cases Option.some.inj hm
              obtain ⟨nB, hB, hBp⟩ := hi i m0 x hm0 hnext
              rw [hx] at hB
              cases Option.some.inj hB
              rw [hprev] at hBp
              exact absurd (Option.some.inj hBp).symm hiP
          · rw [if_neg hiN, if_neg hix] at hm
            obtain ⟨nB, hB, hBp⟩ := hi i m x hm hnext
            rw [hx] at hB
            cases Option.some.inj hB
            rw [hprev] at hBp
            exact absurd (Option.some.inj hBp).symm hiP

end DList
namespace DList

variable {T : Type}

/-- The splice part of `insert_next` preserves the invariant, given that
no foreign cell's `next` points at `node2` (which `remove node2` has just
ensured) and that `node2` is live (it is passed as an `Arc` in the
source). -/
theorem invS_insert_rest {h : Heap T} (hi : InvS h) {node1 node2 : Nat}
    (hno : ∀ i m, h i = some m → m.next = some node2 → i = node2)
    (hlive2 : (h node2).isSome) :
    InvS (insert_rest h node1 node2) := by
  match hn1 : h node1 with
  | none => rw [insert_rest_of_dead hn1]; exact hi
  | some m1 =>
    obtain ⟨m2, hn2⟩ := Option.isSome_iff_exists.mp hlive2
    match hold : m1.next with
    | none =>
      rw [insert_rest_eq_none hn1 hold]
      have lookup : ∀ j, (Heap.modify (Heap.modify
          (Heap.write h node1 { m1 with next := none }) node2
          (fun m => { m with prev := some node1, next := none })) node1
          (fun m => { m with next := some node2 })) j
          = if j = node1 then
              (if j = node2 then
                (if j = node1 then some { m1 with next := none } else h j).map
                  (fun m => { m with prev := some node1, next := none })
              else if j = node1 then some { m1 with next := none } else h j).map
                (fun m => { m with next := some node2 })
            else if j = node2 then
              (if j = node1 then some { m1 with next := none } else h j).map
                (fun m => { m with prev := some node1, next := none })
            else if j = node1 then some { m1 with next := none } else h j := by
        intro j
        simp only [modify_apply, write_apply]
      intro A nA B hA hnext
      rw [lookup] at hA
      by_cases hA1 : A = node1
      · rw [if_pos hA1] at hA
        by_cases h12 : node1 = node2
        · rw [if_pos (hA1.trans h12), if_pos hA1, Option.map_some',
            Option.map_some'] at hA
          cases Option.some.inj hA
          have hB2 : node2 = B := Option.some.inj hnext
          refine ⟨{ data := m1.data, next := some node2, prev := some node1 },
            ?_, ?_⟩
          · rw [lookup, if_pos (hB2.symm.trans h12.symm), if_pos hB2.symm,
              if_pos (hB2.symm.trans h12.symm), Option.map_some', Option.map_some']
          · exact congrArg some hA1.symm
        · rw [if_neg (fun hh => h12 (hA1.symm.trans hh)), if_pos hA1,
            Option.map_some'] at hA
          cases Option.some.inj hA
          have hB2 : node2 = B := Option.some.inj hnext
          have hB1 : ¬ B = node1 := fun hh => h12 (hB2.trans hh).symm
          have hB' : h B = some m2 := by rw [hB2] at hn2; exact hn2
          refine ⟨{ m2 with prev := some node1, next := none }, ?_, ?_⟩
          · rw [lookup, if_neg hB1, if_pos hB2.symm, if_neg hB1, hB',
              Option.map_some']
          · exact congrArg some hA1.symm
      · by_cases hA2 : A = node2
        · rw [if_neg hA1, if_pos hA2, if_neg hA1] at hA
          have hA' : h A = some m2 := by rw [hA2]; exact hn2
          rw [hA', Option.map_some'] at hA
          cases Option.some.inj hA
          exact Option.noConfusion hnext
        · rw [if_neg hA1, if_neg hA2, if_neg hA1] at hA
          obtain ⟨nB, hB, hBp⟩ := hi A nA B hA hnext
          have hB2 : ¬ B = node2 := by
            intro hh
            exact hA2 (hno A nA hA (by rw [hh] at hnext; exact hnext))
          by_cases hB1 : B = node1
          · have hB' : h B = some m1 := by rw [hB1]; exact hn1
            rw [hB'] at hB
            cases Option.some.inj hB
            refine ⟨{ data := m1.data, next := some node2, prev := m1.prev },
              ?_, hBp⟩
            rw [lookup, if_pos hB1, if_neg hB2, if_pos hB1, Option.map_some']
          · refine ⟨nB, ?_, hBp⟩
            rw [lookup, if_neg hB1, if_neg hB2, if_neg hB1]
            exact hB
    | some onx =>
      rw [insert_rest_eq_some hn1 hold]
      obtain ⟨nO, hO, hOp⟩ := hi node1 m1 onx hn1 hold
      have h12or : onx = node2 → node1 = node2 := by
        intro hh
        refine hno node1 m1 hn1 ?_
        rw [hh] at hold
        exact hold
      have lookup : ∀ j, (Heap.modify (Heap.modify (Heap.modify
          (Heap.write h node1 { m1 with next := none }) onx
          (fun m => { m with prev := some node2 })) node2
          (fun m => { m with prev := some node1, next := some onx })) node1
          (fun m => { m with next := some node2 })) j
          = if j = node1 then
              (if j = node2 then
                (if j = onx then
                  (if j = node1 then some { m1 with next := none } else h j).map
                    (fun m => { m with prev := some node2 })
                else if j = node1 then some { m1 with next := none } else h j).map
                  (fun m => { m with prev := some node1, next := some onx })
              else if j = onx then
                (if j = node1 then some { m1 with next := none } else h j).map
                  (fun m => { m with prev := some node2 })
              else if j = node1 then some { m1 with next := none } else h j).map
                (fun m => { m with next := some node2 })
            else if j = node2 then
              (if j = onx then
                (if j = node1 then some { m1 with next := none } else h j).map
                  (fun m => { m with prev := some node2 })
              else if j = node1 then some { m1 with next := none } else h j).map
                (fun m => { m with prev := some node1, next := some onx })
            else if j = onx then
              (if j = node1 then some { m1 with next := none } else h j).map
                (fun m => { m with prev := some node2 })
            else if j = node1 then some { m1 with next := none } else h j := by
        intro j
        simp only [modify_apply, write_apply]
      intro A nA B hA hnext
      rw [lookup] at hA
      by_cases h12 : node1 = node2
      · by_cases hOn1 : onx = node1
        · -- node1 = node2 = onx: the self-loop case
          have hself : m1.prev = some node1 := by
            have hold1 : m1.next = some node1 := by rw [hOn1] at hold; exact hold
            obtain ⟨w, hw, hwp⟩ := hi node1 m1 node1 hn1 hold1
            rw [hn1] at hw
            cases Option.some.inj hw
            exact hwp
          by_cases hA1 : A = node1
          · rw [if_pos hA1, if_pos (hA1.trans h12), if_pos (hA1.trans hOn1.symm),
              if_pos hA1, Option.map_some', Option.map_some', Option.map_some'] at hA
            cases Option.some.inj hA
            have hB2 : node2 = B := Option.some.inj hnext
            have hB1 : B = node1 := hB2.symm.trans h12.symm
            refine ⟨{ data := m1.data, next := some node2, prev := some node1 },
              ?_, ?_⟩
            · rw [lookup, if_pos hB1, if_pos (hB1.trans h12),
                if_pos (hB1.trans hOn1.symm), if_pos hB1, Option.map_some',
                Option.map_some', Option.map_some']
            · exact congrArg some hA1.symm
          · have hA2 : ¬ A = node2 := fun hh => hA1 (hh.trans h12.symm)
            have hAO : ¬ A = onx := fun hh => hA1 (hh.trans hOn1)
            rw [if_neg hA1, if_neg hA2, if_neg hAO, if_neg hA1] at hA
            obtain ⟨nB, hB, hBp⟩ := hi A nA B hA hnext
            have hB1 : ¬ B = node1 := by
              intro hh
              rw [hh, hn1] at hB
              cases Option.some.inj hB
              rw [hself] at hBp
              exact hA1 (Option.some.inj hBp).symm
            have hB2 : ¬ B = node2 := fun hh => hB1 (hh.trans h12.symm)
            have hBO : ¬ B = onx := fun hh => hB1 (hh.trans hOn1)
            refine ⟨nB, ?_, hBp⟩
            rw [lookup, if_neg hB1, if_neg hB2, if_neg hBO, if_neg hB1]
            exact hB
        · -- node1 = node2, onx elsewhere
          have hO2n : ¬ onx = node2 := fun hh => hOn1 (hh.trans h12.symm)
          by_cases hA1 : A = node1
          · rw [if_pos hA1, if_pos (hA1.trans h12),
              if_neg (fun hh => hOn1 (hh.symm.trans hA1)), if_pos hA1,
              Option.map_some', Option.map_some'] at hA
            cases Option.some.inj hA
            have hB2 : node2 = B := Option.some.inj hnext
            have hB1 : B = node1 := hB2.symm.trans h12.symm
            refine ⟨{ data := m1.data, next := some node2, prev := some node1 },
              ?_, ?_⟩
            · rw [lookup, if_pos hB1, if_pos (hB1.trans h12),
                if_neg (fun hh => hOn1 (hh.symm.trans hB1)), if_pos hB1,
                Option.map_some', Option.map_some']
            · exact congrArg some hA1.symm
          · by_cases hAO : A = onx
            · have hA2 : ¬ A = node2 := fun hh => hO2n (hAO.symm.trans hh)
              rw [if_neg hA1, if_neg hA2, if_pos hAO, if_neg hA1] at hA
              have hA' : h A = some nO := by rw [hAO]; exact hO
              rw [hA', Option.map_some'] at hA
              cases Option.some.inj hA
              have hnext' : nO.next = some B := hnext
              obtain ⟨nB, hB, hBp⟩ := hi onx nO B hO hnext'
              have hB2 : ¬ B = node2 := by
                intro hh
                refine hO2n (hno onx nO hO ?_)
                rw [hh] at hnext'
                exact hnext'
              have hB1 : ¬ B = node1 := fun hh => hB2 (hh.trans h12)
              have hBO : ¬ B = onx := by
                intro hh
                rw [hh, hO] at hB
                cases Option.some.inj hB
                rw [hOp] at hBp
                exact hOn1 (Option.some.inj hBp).symm
              refine ⟨nB, ?_, by rw [hAO]; exact hBp⟩
              rw [lookup, if_neg hB1, if_neg hB2, if_neg hBO, if_neg hB1]
              exact hB
            · have hA2 : ¬ A = node2 := fun hh => hA1 (hh.trans h12.symm)
              rw [if_neg hA1, if_neg hA2, if_neg hAO, if_neg hA1] at hA
              obtain ⟨nB, hB, hBp⟩ := hi A nA B hA hnext
              have hB2 : ¬ B = node2 := by
                intro hh
                exact hA2 (hno A nA hA (by rw [hh] at hnext; exact hnext))
              have hB1 : ¬ B = node1 := fun hh => hB2 (hh.trans h12)
              have hBO : ¬ B = onx := by
                intro hh
                rw [hh, hO] at hB
                cases Option.some.inj hB
                rw [hOp] at hBp
                exact hA1 (Option.some.inj hBp).symm
              refine ⟨nB, ?_, hBp⟩
              rw [lookup, if_neg hB1, if_neg hB2, if_neg hBO, if_neg hB1]
              exact hB
      · -- node1 and node2 distinct
        have hO2n : ¬ onx = node2 := fun hh => h12 (h12or hh)
        by_cases hOn1 : onx = node1
        · -- node1 was a self-loop
          have hself : m1.prev = some node1 := by
            have hold1 : m1.next = some node1 := by rw [hOn1] at hold; exact hold
            obtain ⟨w, hw, hwp⟩ := hi node1 m1 node1 hn1 hold1
            rw [hn1] at hw
            cases Option.some.inj hw
            exact hwp
          by_cases hA1 : A = node1
          · rw [if_pos hA1, if_neg (fun hh => h12 (hA1.symm.trans hh)),
              if_pos (hA1.trans hOn1.symm), if_pos hA1, Option.map_some',
              Option.map_some'] at hA
            cases Option.some.inj hA
            have hB2 : node2 = B := Option.some.inj hnext
            have hB1 : ¬ B = node1 := fun hh => h12 (hh.symm.trans hB2.symm)
            have hBO : ¬ B = onx := fun hh => hB1 (hh.trans hOn1)
            have hB' : h B = some m2 := by rw [hB2] at hn2; exact hn2
            refine ⟨{ m2 with prev := some node1, next := some onx }, ?_, ?_⟩
            · rw [lookup, if_neg hB1, if_pos hB2.symm, if_neg hBO, if_neg hB1,
                hB', Option.map_some']
            · exact congrArg some hA1.symm
          · by_cases hA2 : A = node2
            · have hAO : ¬ A = onx := fun hh => hA1 (hh.trans hOn1)
              rw [if_neg hA1, if_pos hA2, if_neg hAO, if_neg hA1] at hA
              have hA' : h A = some m2 := by rw [hA2]; exact hn2
              rw [hA', Option.map_some'] at hA
              cases Option.some.inj hA
              have hBO : onx = B := Option.some.inj hnext
              have hB1 : B = node1 := hBO.symm.trans hOn1
              refine ⟨{ data := m1.data, next := some node2, prev := some node2 },
                ?_, ?_⟩
              · rw [lookup, if_pos hB1, if_neg (fun hh => h12 (hB1.symm.trans hh)),
                  if_pos (hB1.trans hOn1.symm), if_pos hB1, Option.map_some',
                  Option.map_some']
              · exact congrArg some hA2.symm
            · have hAO : ¬ A = onx := fun hh => hA1 (hh.trans hOn1)
              rw [if_neg hA1, if_neg hA2, if_neg hAO, if_neg hA1] at hA
              obtain ⟨nB, hB, hBp⟩ := hi A nA B hA hnext
              have hB1 : ¬ B = node1 := by
                intro hh
                rw [hh, hn1] at hB
                cases Option.some.inj hB
                rw [hself] at hBp
                exact hA1 (Option.some.inj hBp).symm
              have hB2 : ¬ B = node2 := by
                intro hh
                exact hA2 (hno A nA hA (by rw [hh] at hnext; exact hnext))
              have hBO : ¬ B = onx := fun hh => hB1 (hh.trans hOn1)
              refine ⟨nB, ?_, hBp⟩
              rw [lookup, if_neg hB1, if_neg hB2, if_neg hBO, if_neg hB1]
              exact hB
        · -- fully general: node1, node2, onx pairwise distinct
          by_cases hA1 : A = node1
          · rw [if_pos hA1, if_neg (fun hh => h12 (hA1.symm.trans hh)),
              if_neg (fun hh => hOn1 (hh.symm.trans hA1)), if_pos hA1,
              Option.map_some'] at hA
            cases Option.some.inj hA
            have hB2 : node2 = B := Option.some.inj hnext
            have hB1 : ¬ B = node1 := fun hh => h12 (hh.symm.trans hB2.symm)
            have hBO : ¬ B = onx := fun hh => hO2n (hB2.trans hh).symm
            have hB' : h B = some m2 := by rw [hB2] at hn2; exact hn2
            refine ⟨{ m2 with prev := some node1, next := some onx }, ?_, ?_⟩
            · rw [lookup, if_neg hB1, if_pos hB2.symm, if_neg hBO, if_neg hB1,
                hB', Option.map_some']
            · exact congrArg some hA1.symm
          · by_cases hA2 : A = node2
            · have hAO : ¬ A = onx := fun hh => hO2n (hh.symm.trans hA2)
              rw [if_neg hA1, if_pos hA2, if_neg hAO, if_neg hA1] at hA
              have hA' : h A = some m2 := by rw [hA2]; exact hn2
              rw [hA', Option.map_some'] at hA
              cases Option.some.inj hA
              have hBO : onx = B := Option.some.inj hnext
              have hB1 : ¬ B = node1 := fun hh => hOn1 (hBO.trans hh)
              have hB2 : ¬ B = node2 := fun hh => hO2n (hBO.trans hh)
              have hB' : h B = some nO := by rw [hBO] at hO; exact hO
              refine ⟨{ nO with prev := some node2 }, ?_, ?_⟩
              · rw [lookup, if_neg hB1, if_neg hB2, if_pos hBO.symm, if_neg hB1,
                  hB', Option.map_some']
              · exact congrArg some hA2.symm
            · by_cases hAO : A = onx
              · rw [if_neg hA1, if_neg hA2, if_pos hAO, if_neg hA1] at hA
                have hA' : h A = some nO := by rw [hAO]; exact hO
                rw [hA', Option.map_some'] at hA
                cases Option.some.inj hA
                have hnext' : nO.next = some B := hnext
                obtain ⟨nB, hB, hBp⟩ := hi onx nO B hO hnext'
                have hB2 : ¬ B = node2 := by
                  intro hh
                  refine hO2n (hno onx nO hO ?_)
                  rw [hh] at hnext'
                  exact hnext'
                have hBO : ¬ B = onx := by
                  intro hh
                  rw [hh, hO] at hB
                  cases Option.some.inj hB
                  rw [hOp] at hBp
                  exact hOn1 (Option.some.inj hBp).symm
                by_cases hB1 : B = node1
                · have hB' : h B = some m1 := by rw [hB1]; exact hn1
                  rw [hB'] at hB
                  cases Option.some.inj hB
                  refine ⟨{ data := m1.data, next := some node2, prev := m1.prev },
                    ?_, by rw [hAO]; exact hBp⟩
                  rw [lookup, if_pos hB1, if_neg hB2, if_neg hBO, if_pos hB1,
                    Option.map_some']
                · refine ⟨nB, ?_, by rw [hAO]; exact hBp⟩
                  rw [lookup, if_neg hB1, if_neg hB2, if_neg hBO, if_neg hB1]
                  exact hB
              · rw [if_neg hA1, if_neg hA2, if_neg hAO, if_neg hA1] at hA
                obtain ⟨nB, hB, hBp⟩ := hi A nA B hA hnext
                have hB2 : ¬ B = node2 := by
                  intro hh
                  exact hA2 (hno A nA hA (by rw [hh] at hnext; exact hnext))
                have hBO : ¬ B = onx := by
                  intro hh
                  rw [hh, hO] at hB
                  cases Option.some.inj hB
                  rw [hOp] at hBp
                  exact hA1 (Option.some.inj hBp).symm
                by_cases hB1 : B = node1
                · have hB' : h B = some m1 := by rw [hB1]; exact hn1
                  rw [hB'] at hB
                  cases Option.some.inj hB
                  refine ⟨{ data := m1.data, next := some node2, prev := m1.prev },
                    ?_, hBp⟩
                  rw [lookup, if_pos hB1, if_neg hB2, if_neg hBO, if_pos hB1,
                    Option.map_some']
                · refine ⟨nB, ?_, hBp⟩
                  rw [lookup, if_neg hB1, if_neg hB2, if_neg hBO, if_neg hB1]
                  exact hB

end DList
namespace DList

variable {T : Type}

theorem isSome_applyOp (h : Heap T) (o : Op) (j : Nat) :
    ((applyOp h o) j).isSome = (h j).isSome := by
  cases o with
  | removeOp n => exact isSome_remove h n j
  | insertOp a b => exact isSome_insert_next h a b j

/-- One mutating call preserves the invariant (its by-value argument
being live, as the `Arc` parameter guarantees in the source). -/
theorem inv_applyOp {h : Heap T} (hi : Inv h) (o : Op) (hl : opLive h o) :
    Inv (applyOp h o) := by
  cases o with
  | removeOp n => exact (Inv_iff_InvS _).mpr (invS_remove ((Inv_iff_InvS h).mp hi) n)
  | insertOp a b =>
    refine (Inv_iff_InvS _).mpr ?_
    show InvS (insert_rest (remove h b) a b)
    refine invS_insert_rest (invS_remove ((Inv_iff_InvS h).mp hi) b)
      (remove_no_incoming ((Inv_iff_InvS h).mp hi) b) ?_
    rw [isSome_remove]
    exact hl

theorem inv_applyOps : ∀ (ops : List Op) (h : Heap T), Inv h →
    (∀ o ∈ ops, opLive h o) → Inv (applyOps h ops) := by
  intro ops
  induction ops with
  | nil => intro h hi _; exact hi
  | cons o rest ih =>
    intro h hi hl
    refine ih (applyOp h o) (inv_applyOp hi o (hl o (List.mem_cons_self o rest))) ?_
    intro o' ho'
    have hprev := hl o' (List.mem_cons_of_mem o ho')
    cases o' with
    | removeOp n => trivial
    | insertOp a b =>
      show ((applyOp h o) b).isSome = true
      rw [isSome_applyOp]
      exact hprev

theorem view_as_vec_none (h : Heap T) (fuel : Nat) :
    view_as_vec h fuel none = [] := by
  cases fuel <;> rfl

theorem cursor_none (h : Heap T) (fuel : Nat) : cursor h fuel none = none := by
  cases fuel <;> rfl

/-- Once the cursor reaches `None` within `fuel` steps, more fuel does
not change the traversal's output: the Rust loop has terminated. -/
theorem view_as_vec_stable (h : Heap T) : ∀ (fuel : Nat) (cur : Option Nat),
    cursor h fuel cur = none → ∀ k, view_as_vec h (fuel + k) cur = view_as_vec h fuel cur := by
  intro fuel
  induction fuel with
  | zero =>
    intro cur hc k
    have hcn : cur = none := hc
    subst hcn
    rw [view_as_vec_none, view_as_vec_none]
  | succ fuel ih =>
    intro cur hc k
    match cur with
    | none => rw [view_as_vec_none, view_as_vec_none]
    | some i =>
      have e : fuel + 1 + k = (fuel + k) + 1 := by omega
      rw [e]
      match hhi : h i with
      | none => simp [view_as_vec, hhi]
      | some n =>
        have hc' : cursor h fuel n.next = none := by
          simpa [cursor, hhi] using hc
        simp only [view_as_vec, hhi]
        rw [ih n.next hc' k]

/-- `Inv` holds of the concrete two-node list. -/
theorem inv_pairHeap : Inv pairHeap := by
  intro A nA B hA hnext
  unfold pairHeap at hA
  by_cases h0 : A = 0
  · rw [if_pos h0] at hA
    cases Option.some.inj hA
    cases Option.some.inj hnext
    refine ⟨{ data := 2, next := none, prev := some 0 }, rfl, ?_⟩
    rw [h0]
    rfl
  · rw [if_neg h0] at hA
    by_cases h1 : A = 1
    · rw [if_pos h1] at hA
      cases Option.some.inj hA
      exact Option.noConfusion hnext
    · rw [if_neg h1] at hA
      exact Option.noConfusion hA

/-- `Inv` holds of the concrete three-node list plus detached node. -/
theorem inv_moveHeap : Inv moveHeap := by
  intro A nA B hA hnext
  unfold moveHeap at hA
  by_cases h0 : A = 0
  · rw [if_pos h0] at hA
    cases Option.some.inj hA
    cases Option.some.inj hnext
    refine ⟨{ data := 20, next := some 2, prev := some 0 }, rfl, ?_⟩
    rw [h0]
    rfl
  · rw [if_neg h0] at hA
    by_cases h1 : A = 1
    · rw [if_pos h1] at hA
      cases Option.some.inj hA
      cases Option.some.inj hnext
      refine ⟨{ data := 30, next := none, prev := some 1 }, rfl, ?_⟩
      rw [h1]
      rfl
    · rw [if_neg h1] at hA
      by_cases h2 : A = 2
      · rw [if_pos h2] at hA
        cases Option.some.inj hA
        exact Option.noConfusion hnext
      · rw [if_neg h2] at hA
        by_cases h3 : A = 3
        · rw [if_pos h3] at hA
          cases Option.some.inj hA
          exact Option.noConfusion hnext
        · rw [if_neg h3] at hA
          exact Option.noConfusion hA

end DList
namespace DList

variable {T : Type}

/-- `insert_next h n n` leaves `n` pointing at itself in both
directions, whatever state `n` started in. -/
theorem insert_self_spec {h : Heap T} {n0 : Nat} {m : Node T} (hm : h n0 = some m) :
    (insert_next h n0 n0) n0 =
      some { data := m.data, next := some n0, prev := some n0 } := by
  have hlive : ((remove h n0) n0).isSome := by rw [isSome_remove, hm]; rfl
  obtain ⟨m', hm'⟩ := Option.isSome_iff_exists.mp hlive
  have hdata : m'.data = m.data := by
    have hd := data_remove h n0 n0
    rw [hm', hm, Option.map_some', Option.map_some'] at hd
    exact Option.some.inj hd
  show (insert_rest (remove h n0) n0 n0) n0 = _
  match hold : m'.next with
  | none =>
    rw [insert_rest_eq_none hm' hold]
    simp [modify_apply, write_apply, hdata]
  | some onx =>
    rw [insert_rest_eq_some hm' hold]
    by_cases hOn : n0 = onx
    · simp [modify_apply, write_apply, hOn, hdata]
    · simp [modify_apply, write_apply, hOn, hdata]

/-- A self-linked node keeps the traversal cursor fixed forever. -/
theorem cursor_self {h' : Heap T} {n0 : Nat} {d : T}
    (hv : h' n0 = some { data := d, next := some n0, prev := some n0 }) :
    ∀ k, cursor h' k (some n0) = some n0 := by
  intro k
  induction k with
  | zero => rfl
  | succ k ih =>
    show cursor h' (k + 1) (some n0) = some n0
    simp only [cursor, hv]
    exact ih

end DList
namespace DList

variable {T : Type}

/-- C2: the claim (and `remove`'s own doc comment, qcell.rs line 28)
says that after `remove` the node's `next` and `prev` are both `None`.
On the reachable one-node cycle produced by `insert_next(token, n, n)`
(here `selfLoopHeap = insert_next oneDetached 0 0`), the code restores
both links instead: the predecessor it relinks is the node itself, so
the final two writes point `n.prev` and `n.next` back at `n`.  This
theorem evaluates the code at that failing input. -/
theorem remove_self_cycle_keeps_links :
    remove selfLoopHeap 0 0 = some { data := 7, next := some 0, prev := some 0 } := rfl

/-- C5: the claim says `remove` twice leaves the node detached and
other nodes untouched; on the self-linked node of `selfLoopHeap` both
calls are identities, so the node is still not detached afterwards.
This theorem evaluates the code at that failing input. -/
theorem remove_twice_self_cycle_not_detached :
    isDetached (remove (remove selfLoopHeap 0) 0) 0 = false ∧
      remove (remove selfLoopHeap 0) 0 0 =
        some { data := 7, next := some 0, prev := some 0 } := ⟨rfl, rfl⟩

/-- C3: round trip — building `[a, b, c]` with `from_iter` and then
traversing from the returned head with `view_as_vec` yields `[a, b, c]`;
the cursor reaches `None` after the three elements, and any larger fuel
gives the same output (the Rust loop terminates with exactly this
vector). -/
theorem round_trip_from_iter_view (a b c : T) :
    view_as_vec (from_iter (emptySt T) [a, b, c]).1.heap 3
        (from_iter (emptySt T) [a, b, c]).2 = [a, b, c] ∧
      cursor (from_iter (emptySt T) [a, b, c]).1.heap 3
        (from_iter (emptySt T) [a, b, c]).2 = none ∧
      ∀ fuel, 3 ≤ fuel →
        view_as_vec (from_iter (emptySt T) [a, b, c]).1.heap fuel
          (from_iter (emptySt T) [a, b, c]).2 = [a, b, c] := by
  refine ⟨rfl, rfl, ?_⟩
  intro fuel hf
  obtain ⟨k, rfl⟩ : ∃ k, fuel = 3 + k := ⟨fuel - 3, by omega⟩
  rw [view_as_vec_stable (from_iter (emptySt T) [a, b, c]).1.heap 3
    (from_iter (emptySt T) [a, b, c]).2 rfl k]
  rfl

/-- Closed instance of the round trip, with the fuel hypothesis
discharged at fuel 5. -/
theorem round_trip_from_iter_view_witness :
    view_as_vec (from_iter (emptySt Nat) [4, 5, 6]).1.heap 5
      (from_iter (emptySt Nat) [4, 5, 6]).2 = [4, 5, 6] :=
  (round_trip_from_iter_view 4 5 6).2.2 5 (by decide)

/-- C6 counterexample: not every variant stores the backward link
weakly — the `cell_family` variant declares `previous` as an owning
`Rc`. -/
theorem prev_not_weak_everywhere :
    ¬ ∀ v, prevRefKind v = RefKind.weak :=
  fun hall => RefKind.noConfusion (hall Variant.cellFamilyV)

/-- C6 as amended: the qcell, tcell and ghost_cell variants store
`prev` as a `Weak` (non-owning) handle, and upgrading a weak pointer
whose target is gone yields `none` rather than failing; the cell_family
variant instead stores `previous` as an owning `Rc`, so adjacent nodes
there form a strong reference cycle. -/
theorem prev_weak_except_cell_family :
    (∀ v, v ≠ Variant.cellFamilyV → prevRefKind v = RefKind.weak) ∧
      prevRefKind Variant.cellFamilyV = RefKind.strong ∧
      ∀ (h : Heap Nat) p, h p = none → upgrade h p = none := by
  refine ⟨?_, rfl, ?_⟩
  · intro v hv
    cases v with
    | qcellV => rfl
    | tcellV => rfl
    | ghostCellV => rfl
    | cellFamilyV => exact absurd rfl hv
  · intro h p hp
    exact upgrade_dead hp

/-- Closed instance of the amended C6. -/
theorem prev_weak_except_cell_family_witness :
    prevRefKind Variant.qcellV = RefKind.weak ∧
      upgrade (fun _ => (none : Option (Node Nat))) 5 = none :=
  ⟨prev_weak_except_cell_family.1 Variant.qcellV (by decide),
    prev_weak_except_cell_family.2.2 (fun _ => none) 5 rfl⟩

/-- C7: `rw2` on two handles of the same cell fails with
`AliasViolation`; on distinct cells it succeeds, both writes are
visible to later reads, and no other cell is affected. -/
theorem rw2_alias_check_and_writes (s : CellHeap T) (a b : Nat) (va vb : T) :
    (a = b → rw2 s a b va vb = .error .aliasViolation) ∧
      (a ≠ b →
        rw2 s a b va vb = .ok (writeCell (writeCell s a va) b vb) ∧
        readCell (writeCell (writeCell s a va) b vb) a = some va ∧
        readCell (writeCell (writeCell s a va) b vb) b = some vb ∧
        ∀ c, c ≠ a → c ≠ b →
          readCell (writeCell (writeCell s a va) b vb) c = readCell s c) := by
  constructor
  · intro hab
    unfold rw2
    rw [if_pos hab]
  · intro hab
    refine ⟨by unfold rw2; rw [if_neg hab], ?_, ?_, ?_⟩
    · show (if a = b then some vb else if a = a then some va else s.cells a) = some va
      rw [if_neg hab, if_pos rfl]
    · show (if b = b then some vb else if b = a then some va else s.cells b) = some vb
      rw [if_pos rfl]
    · intro c hca hcb
      show (if c = b then some vb else if c = a then some va else s.cells c) = s.cells c
      rw [if_neg hcb, if_neg hca]

/-- Closed instance of C7: both the aliasing failure and the two-cell
success at concrete cells. -/
theorem rw2_alias_check_and_writes_witness :
    rw2 (⟨fun j => if j = 0 then some 1 else if j = 1 then some 2 else none⟩ :
        CellHeap Nat) 0 0 61 62 = .error .aliasViolation ∧
      readCell (writeCell (writeCell (⟨fun j => if j = 0 then some 1 else
        if j = 1 then some 2 else none⟩ : CellHeap Nat) 0 61) 1 62) 0 = some 61 :=
  ⟨(rw2_alias_check_and_writes _ 0 0 61 62).1 rfl,
    ((rw2_alias_check_and_writes _ 0 1 61 62).2 (by decide)).2.1⟩

/-- C8: constructing a `TCellOwner` for a brand that already has a live
owner fails with `DuplicateOwner`; the first construction for a brand
succeeds. -/
theorem new_owner_duplicate_check (live : List Nat) (brand : Nat) :
    (brand ∈ live → newOwner live brand = .error .duplicateOwner) ∧
      (brand ∉ live → newOwner live brand = .ok (brand :: live)) := by
  constructor
  · intro hmem
    unfold newOwner
    rw [if_pos hmem]
  · intro hmem
    unfold newOwner
    rw [if_neg hmem]

/-- Closed instance of C8. -/
theorem new_owner_duplicate_check_witness :
    newOwner [3] 3 = .error .duplicateOwner ∧ newOwner [3] 4 = .ok [4, 3] :=
  ⟨(new_owner_duplicate_check [3] 3).1 (by decide),
    (new_owner_duplicate_check [3] 4).2 (by decide)⟩

/-- C9: every cell of a list built under the token with identity `x`
is stamped `x`; reading it with a token of a different identity `y`
fails with `BrandMismatch`, while reading with `x` returns the stored
value. -/
theorem dynamic_brand_check (x y : Nat) (l : List T) (c : QCell T)
    (hc : c ∈ buildCells x l) :
    (y ≠ x → qread y c = .error .brandMismatch) ∧ qread x c = .ok c.value := by
  obtain ⟨v, hv, rfl⟩ := List.mem_map.mp hc
  constructor
  · intro hyx
    unfold qread
    rw [if_neg (fun hh => hyx hh.symm)]
  · unfold qread
    rw [if_pos rfl]

/-- Closed instance of C9 at a concrete list and tokens. -/
theorem dynamic_brand_check_witness :
    qread 9 (⟨4, 20⟩ : QCell Nat) = .error .brandMismatch ∧
      qread 4 (⟨4, 20⟩ : QCell Nat) = .ok 20 :=
  ⟨(dynamic_brand_check 4 9 [10, 20, 30] ⟨4, 20⟩ (by decide)).1 (by decide),
    (dynamic_brand_check 4 9 [10, 20, 30] ⟨4, 20⟩ (by decide)).2⟩

/-- C10: `insert_next(token, n, n)` on any live node `n` leaves `n.next`
pointing at `n` and `n.prev` resolving to `n` — a one-node cycle — and a
traversal starting at `n` never reaches `None`: after any number of
steps the cursor is still at `n`. -/
theorem insert_self_creates_cycle (h : Heap T) (n0 : Nat) (m : Node T)
    (hm : h n0 = some m) :
    (insert_next h n0 n0) n0 =
        some { data := m.data, next := some n0, prev := some n0 } ∧
      upgrade (insert_next h n0 n0) n0 = some n0 ∧
      ∀ k, cursor (insert_next h n0 n0) k (some n0) = some n0 := by
  have hval := insert_self_spec hm
  exact ⟨hval, upgrade_live hval, cursor_self hval⟩

/-- Closed instance of C10 on the single detached node. -/
theorem insert_self_creates_cycle_witness :
    (insert_next oneDetached 0 0) 0 =
        some { data := 7, next := some 0, prev := some 0 } ∧
      cursor (insert_next oneDetached 0 0) 4 (some 0) = some 0 :=
  ⟨(insert_self_creates_cycle oneDetached 0 { data := 7, next := none, prev := none }
      rfl).1,
    (insert_self_creates_cycle oneDetached 0 { data := 7, next := none, prev := none }
      rfl).2.2 4⟩

/-- C1: starting from any heap satisfying the steady-state invariant,
any interleaving of `remove` and `insert_next` calls (each argument a
live cell, as the `Arc` parameters guarantee) preserves it: after the
sequence, whenever `A.next` points at `B`, the cell `B` is live and
upgrading `B.prev` yields `A`. -/
theorem steady_invariant_all_interleavings (h : Heap T) (ops : List Op)
    (hInv : Inv h) (hlive : ∀ o ∈ ops, opLive h o) :
    Inv (applyOps h ops) :=
  inv_applyOps ops h hInv hlive

/-- Closed instance of C1: move node 1 after node 0 in the two-node
list, then remove node 0. -/
theorem steady_invariant_all_interleavings_witness :
    Inv (applyOps pairHeap [Op.insertOp 1 0, Op.removeOp 0]) :=
  steady_invariant_all_interleavings pairHeap [Op.insertOp 1 0, Op.removeOp 0]
    inv_pairHeap (by intro o ho; fin_cases ho <;> simp [opLive, pairHeap])

end DList
namespace DList

variable {T : Type}

/-- C4: moving a node that is linked between `X` and `Y`.  With `B`
linked between `X` and `Y` in a steady-state heap and `A ≠ B` live, the
`remove` phase of `insert_next(token, A, B)` leaves `X` and `Y` directly
linked (`X.next` is `Y`, `Y.prev` upgrades to `X`), and the completed
call splices `B` after `A`: `A.next` is `B`, `B.prev` upgrades to `A`,
`B.next` holds `A`'s successor as of just after the detach, and that
successor's `prev` upgrades to `B`. -/
theorem insert_next_moves_linked_node (h : Heap T) (hInv : Inv h)
    (X Y A B : Nat) (nx nb na : Node T)
    (hX : h X = some nx) (hXB : nx.next = some B)
    (hB : h B = some nb) (hBY : nb.next = some Y)
    (hA : h A = some na)
    (hAB : A ≠ B) (hXY : X ≠ Y) (hXneB : X ≠ B) (hYneB : Y ≠ B) :
    (∃ nx2, (remove h B) X = some nx2 ∧ nx2.next = some Y) ∧
    (∃ ny2, (remove h B) Y = some ny2 ∧
      ny2.prev.bind (fun p => upgrade (remove h B) p) = some X) ∧
    (∃ na2, (insert_next h A B) A = some na2 ∧ na2.next = some B) ∧
    (∃ na1 nb2, (remove h B) A = some na1 ∧ (insert_next h A B) B = some nb2 ∧
      nb2.prev.bind (fun p => upgrade (insert_next h A B) p) = some A ∧
      nb2.next = na1.next ∧
      (∀ S, na1.next = some S → ∃ ns, (insert_next h A B) S = some ns ∧
        ns.prev.bind (fun p => upgrade (insert_next h A B) p) = some B)) := by
  have hs : InvS h := (Inv_iff_InvS h).mp hInv
  obtain ⟨w, hw, hwp⟩ := hs X nx B hX hXB
  rw [hB] at hw
  cases Option.some.inj hw
  obtain ⟨ny, hY, hYp⟩ := hs B nb Y hB hBY
  have hpnB : nb.prev.bind (fun p => upgrade h p) = some X := by
    rw [hwp]
    exact bind_upgrade_of_live hX
  have hmid := remove_eq_ss hB hBY hpnB
  have lookupM : ∀ j, remove h B j
      = if j = X then
          (if j = Y then
            (if j = B then some { nb with prev := none, next := none } else h j).map
              (fun m => { m with prev := some X })
          else if j = B then some { nb with prev := none, next := none } else h j).map
            (fun m => { m with next := some Y })
        else if j = Y then
          (if j = B then some { nb with prev := none, next := none } else h j).map
            (fun m => { m with prev := some X })
        else if j = B then some { nb with prev := none, next := none } else h j := by
    intro j
    rw [hmid]
    simp only [modify_apply, write_apply]
  have hmX : remove h B X = some { nx with next := some Y } := by
    rw [lookupM X, if_pos rfl, if_neg hXY, if_neg hXneB, hX, Option.map_some']
  have hmY : remove h B Y = some { ny with prev := some X } := by
    rw [lookupM Y, if_neg (fun hh => hXY hh.symm), if_pos rfl, if_neg hYneB, hY,
      Option.map_some']
  have hmB : remove h B B = some { nb with prev := none, next := none } := by
    rw [lookupM B, if_neg (fun hh => hXneB hh.symm), if_neg (fun hh => hYneB hh.symm),
      if_pos rfl]
  have hmAs : ((remove h B) A).isSome := by
    rw [isSome_remove, hA]
    rfl
  obtain ⟨na1, hmA⟩ := Option.isSome_iff_exists.mp hmAs
  have hmidInv : InvS (remove h B) := invS_remove hs B
  have hmidNo : ∀ i m, remove h B i = some m → m.next = some B → i = B :=
    remove_no_incoming hs B
  refine ⟨⟨{ nx with next := some Y }, hmX, rfl⟩,
    ⟨{ ny with prev := some X }, hmY, bind_upgrade_of_live hmX⟩, ?_⟩
  show (∃ na2, (insert_rest (remove h B) A B) A = some na2 ∧ na2.next = some B) ∧ _
  match hold : na1.next with
  | none =>
    have hrw := @insert_rest_eq_none T (remove h B) A B na1 hmA hold
    have lookupF : ∀ j, insert_rest (remove h B) A B j
        = if j = A then
            (if j = B then
              (if j = A then some { na1 with next := none } else remove h B j).map
                (fun m => { m with prev := some A, next := none })
            else if j = A then some { na1 with next := none } else remove h B j).map
              (fun m => { m with next := some B })
          else if j = B then
            (if j = A then some { na1 with next := none } else remove h B j).map
              (fun m => { m with prev := some A, next := none })
          else if j = A then some { na1 with next := none } else remove h B j := by
      intro j
      rw [hrw]
      simp only [modify_apply, write_apply]
    have hfA : insert_rest (remove h B) A B A
        = some { data := na1.data, next := some B, prev := na1.prev } := by
      rw [lookupF A, if_pos rfl, if_neg hAB, if_pos rfl, Option.map_some']
    have hfB : insert_rest (remove h B) A B B
        = some { data := nb.data, next := none, prev := some A } := by
      rw [lookupF B, if_neg (fun hh => hAB hh.symm), if_pos rfl,
        if_neg (fun hh => hAB hh.symm), hmB, Option.map_some']
    refine ⟨⟨_, hfA, rfl⟩, na1, { data := nb.data, next := none, prev := some A },
      hmA, hfB, bind_upgrade_of_live hfA, hold.symm, ?_⟩
    intro S hS
    rw [hold] at hS
    exact Option.noConfusion hS
  | some onx =>
    have hOB : onx ≠ B := by
      intro hh
      refine hAB (hmidNo A na1 hmA ?_)
      rw [hh] at hold
      exact hold
    have hrw := @insert_rest_eq_some T (remove h B) A B onx na1 hmA hold
    have lookupF : ∀ j, insert_rest (remove h B) A B j
        = if j = A then
            (if j = B then
              (if j = onx then
                (if j = A then some { na1 with next := none } else remove h B j).map
                  (fun m => { m with prev := some B })
              else if j = A then some { na1 with next := none } else remove h B j).map
                (fun m => { m with prev := some A, next := some onx })
            else if j = onx then
              (if j = A then some { na1 with next := none } else remove h B j).map
                (fun m => { m with prev := some B })
            else if j = A then some { na1 with next := none } else remove h B j).map
              (fun m => { m with next := some B })
          else if j = B then
            (if j = onx then
              (if j = A then some { na1 with next := none } else remove h B j).map
                (fun m => { m with prev := some B })
            else if j = A then some { na1 with next := none } else remove h B j).map
              (fun m => { m with prev := some A, next := some onx })
          else if j = onx then
            (if j = A then some { na1 with next := none } else remove h B j).map
              (fun m => { m with prev := some B })
          else if j = A then some { na1 with next := none } else remove h B j := by
      intro j
      rw [hrw]
      simp only [modify_apply, write_apply]
    have hfB : insert_rest (remove h B) A B B
        = some { data := nb.data, next := some onx, prev := some A } := by
      rw [lookupF B, if_neg (fun hh => hAB hh.symm), if_pos rfl,
        if_neg (fun hh => hOB hh.symm), if_neg (fun hh => hAB hh.symm), hmB,
        Option.map_some']
    by_cases hAonx : A = onx
    · have hfA : insert_rest (remove h B) A B A
          = some { data := na1.data, next := some B, prev := some B } := by
        rw [lookupF A, if_pos rfl, if_neg hAB, if_pos hAonx, if_pos rfl,
          Option.map_some', Option.map_some']
      refine ⟨⟨_, hfA, rfl⟩, na1, { data := nb.data, next := some onx, prev := some A },
        hmA, hfB, bind_upgrade_of_live hfA, hold.symm, ?_⟩
      intro S hS
      rw [hold] at hS
      cases Option.some.inj hS
      have hSA : insert_rest (remove h B) A B onx
          = some { data := na1.data, next := some B, prev := some B } := by
        rw [← hAonx]
        exact hfA
      exact ⟨_, hSA, bind_upgrade_of_live hfB⟩
    · have hfA : insert_rest (remove h B) A B A
          = some { data := na1.data, next := some B, prev := na1.prev } := by
        rw [lookupF A, if_pos rfl, if_neg hAB, if_neg hAonx, if_pos rfl,
          Option.map_some']
      refine ⟨⟨_, hfA, rfl⟩, na1, { data := nb.data, next := some onx, prev := some A },
        hmA, hfB, bind_upgrade_of_live hfA, hold.symm, ?_⟩
      intro S hS
      rw [hold] at hS
      cases Option.some.inj hS
      obtain ⟨nO1, hO1, _⟩ := hmidInv A na1 onx hmA hold
      have hSv : insert_rest (remove h B) A B onx
          = some { nO1 with prev := some B } := by
        rw [lookupF onx, if_neg (fun hh => hAonx hh.symm), if_neg hOB, if_pos rfl,
          if_neg (fun hh => hAonx hh.symm), hO1, Option.map_some']
      exact ⟨_, hSv, bind_upgrade_of_live hfB⟩

end DList
namespace DList

/-- Closed instance of C4: in `[10, 20, 30]` with a detached `40`, move
node `1` (between `0` and `2`) after node `3`. -/
theorem insert_next_moves_linked_node_witness :
    (∃ nx2, (remove moveHeap 1) 0 = some nx2 ∧ nx2.next = some 2) ∧
      (∃ na2, (insert_next moveHeap 3 1) 3 = some na2 ∧ na2.next = some 1) :=
  ⟨(insert_next_moves_linked_node moveHeap inv_moveHeap 0 2 3 1
      { data := 10, next := some 1, prev := none }
      { data := 20, next := some 2, prev := some 0 }
      { data := 40, next := none, prev := none }
      rfl rfl rfl rfl rfl (by decide) (by decide) (by decide) (by decide)).1,
    (insert_next_moves_linked_node moveHeap inv_moveHeap 0 2 3 1
      { data := 10, next := some 1, prev := none }
      { data := 20, next := some 2, prev := some 0 }
      { data := 40, next := none, prev := none }
      rfl rfl rfl rfl rfl (by decide) (by decide) (by decide) (by decide)).2.2.1⟩

end DList
namespace DList

variable {T : Type}

/-- The positive side of C2/C5: whenever the node is not its own
neighbour (its `next` does not point back at it and its `prev` does not
upgrade to it), `remove` does clear both links as documented. -/
theorem remove_clears_links {h : Heap T} {node : Nat} {n : Node T}
    (hn : h node = some n) (hns : n.next ≠ some node)
    (hps : n.prev.bind (fun p => upgrade h p) ≠ some node) :
    remove h node node = some { data := n.data, next := none, prev := none } := by
  match hnn : n.next, hpn : n.prev.bind (fun p => upgrade h p) with
  | none, none =>
    rw [remove_eq_nn hn hnn hpn, write_apply, if_pos rfl]
  | some N, none =>
    have hNn : ¬ node = N := by
      intro hh
      rw [hnn, hh] at hns
      exact hns rfl
    rw [remove_eq_sn hn hnn hpn, modify_apply, if_neg hNn, write_apply, if_pos rfl]
  | none, some P =>
    have hPn : ¬ node = P := by
      intro hh
      rw [hpn, hh] at hps
      exact hps rfl
    rw [remove_eq_ns hn hnn hpn, modify_apply, if_neg hPn, write_apply, if_pos rfl]
  | some N, some P =>
    have hNn : ¬ node = N := by
      intro hh
      rw [hnn, hh] at hns
      exact hns rfl
    have hPn : ¬ node = P := by
      intro hh
      rw [hpn, hh] at hps
      exact hps rfl
    rw [remove_eq_ss hn hnn hpn, modify_apply, if_neg hPn, modify_apply, if_neg hNn,
      write_apply, if_pos rfl]

/-- `remove` on an already-detached node changes nothing at all. -/
theorem remove_detached_noop {h : Heap T} {node : Nat} {d : T}
    (hn : h node = some { data := d, next := none, prev := none }) :
    ∀ j, remove h node j = h j := by
  intro j
  rw [remove_eq_nn hn rfl (by rw [show (({ data := d, next := none, prev := none } :
    Node T)).prev = none from rfl, Option.none_bind]), write_apply]
  by_cases hj : j = node
  · rw [if_pos hj, hj, hn]
  · rw [if_neg hj]

/-- For a node that is not self-linked, the second `remove` is a
complete no-op, so `remove` is idempotent there. -/
theorem remove_twice_eq {h : Heap T} {node : Nat} {n : Node T}
    (hn : h node = some n) (hns : n.next ≠ some node)
    (hps : n.prev.bind (fun p => upgrade h p) ≠ some node) :
    ∀ j, remove (remove h node) node j = remove h node j :=
  remove_detached_noop (remove_clears_links hn hns hps)

end DList
